import Mathlib

/-!
Shallow embedding of the token-launch monitor (cache.rs, engine.rs,
types.rs, utils.rs, x.rs) and proofs about the claims of its
specification.  Conventions:

* Redis state is pure: the `token_info_set` hash is an association list
  from mint key to serialised record, and the flat `token_alert_sent:`
  marker keyspace is a list of keys; iteration order of a Rust `HashMap`
  is abstracted by list order.
* A Rust panic (`unwrap`, out-of-bounds index) is modelled by `Option`
  with `none` for the panicking run.
* `f32`/`f64` values are carried as exact rationals; IEEE-754 rounding is
  abstracted, while the special values produced by division by zero are
  represented explicitly by the `FP` type.
* Machine integers are `Nat`/`Int`; `u64` string parsing checks the
  `2 ^ 64` bound where the source would overflow.
-/

/-- Splits a character list at every occurrence of `sep`, keeping empty
chunks: the behaviour of Rust `str::split(sep)`. -/
def splitOnChar (sep : Char) : List Char → List (List Char)
  | [] => [[]]
  | c :: rest =>
    if c = sep then [] :: splitOnChar sep rest
    else
      match splitOnChar sep rest with
      | [] => [[c]]
      | h :: t => (c :: h) :: t

/-- The pipe-separated fields of a serialised token record: embeds the
`info.split("|").collect::<Vec<_>>()` idiom of cache.rs. -/
def fields (s : String) : List String := (splitOnChar '|' s.data).map List.asString

/-- Joins strings with the pipe separator: the `format!("{}|{}|…")`
serialisation of a token record. -/
def joinPipe : List String → String
  | [] => ""
  | [x] => x
  | x :: xs => x ++ "|" ++ joinPipe xs

def isDigitChar (c : Char) : Bool := decide ('0' ≤ c) && decide (c ≤ '9')

def digitsToNat : List Char → Nat → Nat
  | [], acc => acc
  | c :: rest, acc => digitsToNat rest (acc * 10 + (c.toNat - 48))

/-- A natural number as a rational, built directly on the raw constructor
so that kernel reduction (`decide`) never has to normalise. -/
def natToRat (n : Nat) : ℚ := Rat.mk' (Int.ofNat n) 1 one_ne_zero (Nat.coprime_one_right _)

/-- Models Rust `str::parse::<u64>`: optional leading `+`, then one or
more ASCII digits, rejecting values at or above `2 ^ 64` (overflow). -/
def parseU64q (s : String) : Option Nat :=
  let cs := match s.data with
    | '+' :: rest => rest
    | cs => cs
  if cs ≠ [] ∧ cs.all isDigitChar then
    let n := digitsToNat cs 0
    if n < 2 ^ 64 then some n else none
  else none

/-- Models Rust `str::parse::<f32>` on the plain decimal fragment of its
grammar: optional sign, digits with at most one decimal point and at least
one digit overall.  IEEE-754 rounding is abstracted (the exact decimal
value is returned); the exponent and `inf`/`NaN` spellings lie outside the
modelled fragment. -/
def parseF32q (s : String) : Option ℚ :=
  let signed : Bool × List Char := match s.data with
    | '-' :: rest => (true, rest)
    | '+' :: rest => (false, rest)
    | cs => (false, cs)
  let neg := signed.1
  match splitOnChar '.' signed.2 with
  | [intPart] =>
    if intPart ≠ [] ∧ intPart.all isDigitChar then
      let v := natToRat (digitsToNat intPart 0)
      some (if neg then -v else v)
    else none
  | [intPart, fracPart] =>
    if (intPart ≠ [] ∨ fracPart ≠ []) ∧ intPart.all isDigitChar ∧ fracPart.all isDigitChar then
      let v := natToRat (digitsToNat (intPart ++ fracPart) 0) / natToRat (10 ^ fracPart.length)
      some (if neg then -v else v)
    else none
  | _ => none

/-- Model of an IEEE-754 binary64 value as used by the pricing code:
finite values are exact rationals, and the special values that division
by zero produces are explicit. -/
inductive FP where
  | fin (q : ℚ)
  | inf
  | neginf
  | nan
deriving DecidableEq

/-- IEEE division of two finite doubles: `a / 0.0` is `±∞` for nonzero
`a` and `NaN` for `a = 0`; rounding of the finite quotient is abstracted. -/
def divF64 (a b : ℚ) : FP :=
  if b = 0 then (if 0 < a then .inf else if a < 0 then .neginf else .nan)
  else .fin (a / b)

/-- Embeds `cal_pumpfun_price` (utils.rs):
`(virtual_sol_reserves as f64 / 10f64.powi(9)) / (virtual_token_reserves as f64 / 10f64.powi(6))`
with no guard against zero token reserves. -/
def cal_pumpfun_price (virtual_sol_reserves virtual_token_reserves : Nat) : FP :=
  divF64 ((virtual_sol_reserves : ℚ) / 10 ^ 9) ((virtual_token_reserves : ℚ) / 10 ^ 6)

/-- Embeds `cal_pumpfun_marketcap` (utils.rs): `price * 1_000_000_000.0`;
multiplying a special by a positive finite constant preserves it. -/
def cal_pumpfun_marketcap : FP → FP
  | .fin p => .fin (p * 1000000000)
  | x => x

/-- Embeds `cal_pumpamm_price` (utils.rs): base and quote reserves scaled
by `10^TOKEN_DECIMALS` and `10^WSOL_DECIMALS`, returning `0.0` when the
scaled base is zero. -/
def cal_pumpamm_price (base_reserves quote_reserves : Nat) : FP :=
  let base : ℚ := (base_reserves : ℚ) / 10 ^ 6
  let quote : ℚ := (quote_reserves : ℚ) / 10 ^ 9
  if base = 0 then .fin 0 else .fin (quote / base)

/-- Embeds `cal_pumpamm_marketcap_precise` (utils.rs): `price * 1_000_000_000.0`. -/
def cal_pumpamm_marketcap_precise : FP → FP
  | .fin p => .fin (p * 1000000000)
  | x => x

/-- Models Rust `ToString` on the `f64` market cap written back by
`update_mk`; decimal rendering of finite doubles is abstracted by the
rational's rendering, specials use Rust's spellings. -/
def floatToString : FP → String
  | .fin q => toString q
  | .inf => "inf"
  | .neginf => "-inf"
  | .nan => "NaN"

/-- The Redis hash `token_info_set`: mint key to pipe-serialised record. -/
abbrev Store := List (String × String)

/-- Redis `hget` on the token hash. -/
def hget : Store → String → Option String
  | [], _ => none
  | (k, v) :: rest, q => if k = q then some v else hget rest q

/-- Redis `hset` on the token hash: overwrite the field if present,
append it otherwise. -/
def hset : Store → String → String → Store
  | [], q, nv => [(q, nv)]
  | (k, v) :: rest, q, nv => if k = q then (q, nv) :: rest else (k, v) :: hset rest q nv

/-- Redis `hdel` on the token hash. -/
def hdel : Store → String → Store
  | [], _ => []
  | (k, v) :: rest, q => if k = q then hdel rest q else (k, v) :: hdel rest q

/-- The hash keys are distinct, as they are in a Redis hash. -/
def keysNodup (s : Store) : Prop := (s.map Prod.fst).Nodup

/-- Every well-formed (nine-field) record sits under its own mint:
field 0 of the record equals the hash key, as `add_token_info` and
`update_mk` maintain. -/
def wellKeyed (s : Store) : Prop :=
  ∀ p ∈ s, (fields p.2).length = 9 → (fields p.2)[0]! = p.1

/-- `NEW_COIN_MIN_TIME` (constants.rs): 10 minutes in milliseconds. -/
def NEW_COIN_MIN_TIME : Nat := 10 * 60 * 1000

/-- `NEW_COIN_MAX_TIME` (constants.rs): 15 minutes in milliseconds. -/
def NEW_COIN_MAX_TIME : Nat := 15 * 60 * 1000

/-- The flat Redis key `format!("token_alert_sent:{}", mint)` guarding the
one-shot alert for a mint. -/
def markerKey (mint : String) : String := "token_alert_sent:" ++ mint

/-- Embeds `update_mk` (cache.rs).  `hget` of an absent field is a Redis
type error, swallowed into a no-op.  An existing record is re-serialised
with field 1 replaced by the stringified market cap and field 8 by the
pool; `none` models the panic of `splits[2]`/`splits[3..7]` indexing when
the stored record has fewer than eight fields.  The rewrite is stored
under the record's own field 0 (the source shadows `mint` with
`splits[0]`). -/
def update_mk (s : Store) (mint : String) (market_cap : FP) (pool : String) : Option Store :=
  match hget s mint with
  | none => some s
  | some old_info =>
    let splits := fields old_info
    if splits.length < 8 then none
    else
      let new_info := joinPipe [splits[0]!, floatToString market_cap, splits[2]!,
        splits[3]!, splits[4]!, splits[5]!, splits[6]!, splits[7]!, pool]
      some (hset s splits[0]! new_info)

/-- Embeds `from_pool_query_token_mint` (cache.rs): scan the hash and
return the first mint whose record has more than eight fields with
field 8 equal to the queried pool; otherwise the empty string. -/
def from_pool_query_token_mint : Store → String → String
  | [], _ => ""
  | (mint, info) :: rest, pool =>
    let splits := fields info
    if 8 < splits.length ∧ splits[8]! = pool then mint
    else from_pool_query_token_mint rest pool

/-- First pass of `check_mk` (cache.rs): iterate the snapshot of the hash,
skip records that do not split into exactly nine fields, and delete (from
the accumulated hash) every record that is mid-age and below the market-cap
threshold.  The deletion key is the record's own field 0.  `none` models
the `.parse().unwrap()` panic on a nine-field record whose market-cap or
create-time field does not parse.  Both `timestamp()` calls of the window
check are abstracted by the single instant `now`; the threshold is the
env-configured `MARKET_CAP`. -/
def check_mk_gc (now : Nat) (threshold : ℚ) : List (String × String) → Store → Option Store
  | [], acc => some acc
  | (_, info) :: rest, acc =>
    let splits := fields info
    if splits.length ≠ 9 then check_mk_gc now threshold rest acc
    else
      match parseF32q splits[1]!, parseU64q splits[2]! with
      | some mk, some create_time =>
        let is_mid_age_coin :=
          create_time + NEW_COIN_MIN_TIME ≤ now ∧ now < create_time + NEW_COIN_MAX_TIME
        let has_enough_market_cap := threshold ≤ mk
        if ¬ has_enough_market_cap ∧ is_mid_age_coin then
          check_mk_gc now threshold rest (hdel acc splits[0]!)
        else check_mk_gc now threshold rest acc
      | _, _ => none

/-- Second pass of `check_mk` (cache.rs): walk the surviving records, skip
those without exactly nine fields, and for each record whose market cap
strictly exceeds the threshold and whose alert marker is absent, set the
marker and append the record to the dispatch batch.  `none` models the
`.parse().unwrap()` panics of the destructuring. -/
def check_mk_alert (threshold : ℚ) :
    List (String × String) → List String → Option (List String × List (String × String))
  | [], marks => some (marks, [])
  | (mint, info) :: rest, marks =>
    let splits := fields info
    if splits.length ≠ 9 then check_mk_alert threshold rest marks
    else
      match parseF32q splits[1]!, parseU64q splits[2]! with
      | some mk, some _ =>
        let mint_warning := markerKey mint
        if mint_warning ∉ marks ∧ threshold < mk then
          match check_mk_alert threshold rest (mint_warning :: marks) with
          | none => none
          | some (m, b) => some (m, (mint, info) :: b)
        else check_mk_alert threshold rest marks
      | _, _ => none

/-- Embeds `check_mk` (cache.rs): the GC pass over the snapshot (the Redis
hash and the local `tokens_to_exist` clone receive the same deletions, so
one store suffices), then the alert pass over the survivors.  Returns the
resulting hash, marker keyspace and the dispatch batch handed to the
spawned fan-out task; `none` models a panic. -/
def check_mk (now : Nat) (threshold : ℚ) (s : Store) (marks : List String) :
    Option (Store × List String × List (String × String)) :=
  match check_mk_gc now threshold s s with
  | none => none
  | some survivors =>
    match check_mk_alert threshold survivors marks with
    | none => none
    | some (marks2, batch) => some (survivors, marks2, batch)

/-- One step of the system as seen by the shared store: an Evaluator
invocation (`check_mk` at some instant), or any other mutation of the
token hash (`add_token_info`, `update_mk`, a process restart).  No code
path outside `check_mk` ever writes or deletes a `token_alert_sent:`
marker, so such steps leave the marker keyspace unchanged. -/
inductive Act where
  | eval (now : Nat)
  | mutate (f : Store → Store)

/-- Runs a sequence of system steps over the shared store, collecting
every dispatch-batch entry produced by the Evaluator invocations;
`none` models a panic in some invocation. -/
def runActs (threshold : ℚ) :
    List Act → Store → List String → Option (Store × List String × List (String × String))
  | [], s, marks => some (s, marks, [])
  | Act.eval now :: rest, s, marks =>
    match check_mk now threshold s marks with
    | none => none
    | some (s2, marks2, batch) =>
      match runActs threshold rest s2 marks2 with
      | none => none
      | some (s3, marks3, batches) => some (s3, marks3, batch ++ batches)
  | Act.mutate f :: rest, s, marks => runActs threshold rest (f s) marks

/-- The two fields of an x.rs `Tweet` that the alert fan-out reads;
`Tweet::default()` is the all-empty tweet. -/
structure Tweet where
  tweet_id : String
  text : String
deriving DecidableEq

def defaultTweet : Tweet := ⟨"", ""⟩

/-- The outcome of `Client::search_tweets` as observed by the fan-out:
a successful `TwitterResponse` (its list of tweets), or a final error
after the client's retries are exhausted. -/
inductive SearchOutcome where
  | ok (tweets : List Tweet)
  | err

/-- Embeds the query-parameter construction of `Client::search_tweets`
(x.rs): `q` always, `cursor` always (empty when absent), `sort_by` only
when nonempty. -/
def search_params (query : String) (cursor : Option String) (sort_by : Option String) :
    List (String × String) :=
  [("q", query)] ++
  (match cursor with
   | some c => [("cursor", c)]
   | none => [("cursor", "")]) ++
  (match sort_by with
   | some sb => if sb = "" then [] else [("sort_by", sb)]
   | none => [])

/-- Embeds the social-search step of the fan-out in `check_mk`:
`x_infos.tweets.first().unwrap().clone()` on success, `Tweet::default()`
on failure; `none` models the `unwrap` panic when the successful response
carries no tweets. -/
def fanout_x_info : SearchOutcome → Option Tweet
  | .ok tweets => tweets.head?
  | .err => some defaultTweet


/-- Raw bytes: the payload of an inner instruction after base58 decoding,
and the 32 bytes of a `Pubkey`. -/
abbrev Bytes := List Nat

/-- The base58 alphabet used by `solana_sdk::bs58`. -/
def BASE58_ALPHABET : List Char :=
  "123456789ABCDEFGHJKLMNPQRSTUVWXYZabcdefghijkmnopqrstuvwxyz".data

def b58Val (c : Char) : Option Nat := BASE58_ALPHABET.indexOf? c

/-- Little-endian base-256 digits of `n` (fuel-driven so that the kernel
can evaluate it). -/
def natToBytesLE : Nat → Nat → Bytes
  | 0, _ => []
  | _ + 1, 0 => []
  | fuel + 1, n => (n % 256) :: natToBytesLE fuel (n / 256)

def countLeading [DecidableEq α] (a : α) : List α → Nat
  | [] => 0
  | x :: rest => if x = a then countLeading a rest + 1 else 0

/-- Base58 decoding as performed by `bs58::decode(..).into_vec()`:
`none` exactly when some character is outside the alphabet; leading `'1'`
digits become leading zero bytes. -/
def bs58Decode (s : String) : Option Bytes :=
  match s.data.mapM b58Val with
  | none => none
  | some ds =>
    let n := ds.foldl (fun acc d => acc * 58 + d) 0
    some (List.replicate (countLeading 0 ds) 0 ++ (natToBytesLE s.data.length n).reverse)

/-- Little-endian base-58 digits of `n` (fuel-driven). -/
def natToB58LE : Nat → Nat → List Nat
  | 0, _ => []
  | _ + 1, 0 => []
  | fuel + 1, n => (n % 58) :: natToB58LE fuel (n / 58)

/-- Base58 encoding: models `Pubkey::to_string` (and any `bs58` encode);
leading zero bytes become leading `'1'` characters. -/
def bs58Encode (bs : Bytes) : String :=
  let n := bs.foldl (fun acc b => acc * 256 + b) 0
  let digits := (natToB58LE (2 * bs.length + 1) n).reverse
  List.asString
    (List.replicate (countLeading 0 bs) '1' ++ digits.map (fun d => BASE58_ALPHABET[d]!))

def pubkeyToString (pk : Bytes) : String := bs58Encode pk

def isCont (b : Nat) : Bool := decide (128 ≤ b) && decide (b ≤ 191)

/-- UTF-8 validity of a byte sequence, as checked by `String::from_utf8`
and by borsh's `String` deserialisation (surrogates and overlong forms
rejected). -/
def utf8Valid : Bytes → Bool
  | [] => true
  | b :: rest =>
    if b < 128 then utf8Valid rest
    else if 194 ≤ b && b ≤ 223 then
      match rest with
      | b1 :: r => isCont b1 && utf8Valid r
      | [] => false
    else if b = 224 then
      match rest with
      | b1 :: b2 :: r => decide (160 ≤ b1) && decide (b1 ≤ 191) && isCont b2 && utf8Valid r
      | _ => false
    else if 225 ≤ b && b ≤ 236 then
      match rest with
      | b1 :: b2 :: r => isCont b1 && isCont b2 && utf8Valid r
      | _ => false
    else if b = 237 then
      match rest with
      | b1 :: b2 :: r => decide (128 ≤ b1) && decide (b1 ≤ 159) && isCont b2 && utf8Valid r
      | _ => false
    else if 238 ≤ b && b ≤ 239 then
      match rest with
      | b1 :: b2 :: r => isCont b1 && isCont b2 && utf8Valid r
      | _ => false
    else if b = 240 then
      match rest with
      | b1 :: b2 :: b3 :: r =>
        decide (144 ≤ b1) && decide (b1 ≤ 191) && isCont b2 && isCont b3 && utf8Valid r
      | _ => false
    else if 241 ≤ b && b ≤ 243 then
      match rest with
      | b1 :: b2 :: b3 :: r => isCont b1 && isCont b2 && isCont b3 && utf8Valid r
      | _ => false
    else if b = 244 then
      match rest with
      | b1 :: b2 :: b3 :: r =>
        decide (128 ≤ b1) && decide (b1 ≤ 143) && isCont b2 && isCont b3 && utf8Valid r
      | _ => false
    else false

/-- Takes `n` bytes off the front, failing (borsh `unexpected end of
input`) when fewer remain. -/
def takeBytes : Nat → Bytes → Option (Bytes × Bytes)
  | 0, bs => some ([], bs)
  | _ + 1, [] => none
  | n + 1, b :: bs =>
    match takeBytes n bs with
    | none => none
    | some (xs, rest) => some (b :: xs, rest)

/-- The value of a little-endian byte sequence. -/
def leVal : Bytes → Nat
  | [] => 0
  | b :: bs => b + 256 * leVal bs

/-- A borsh field reader: consumes a prefix of the bytes, or fails as the
borsh deserialiser does. -/
def BP (α : Type) := Bytes → Option (α × Bytes)

instance : Monad BP where
  pure a := fun bs => some (a, bs)
  bind p f := fun bs =>
    match p bs with
    | none => none
    | some (a, rest) => f a rest

def pU8 : BP Nat := fun bs => (takeBytes 1 bs).map (fun p => (leVal p.1, p.2))

def pU16 : BP Nat := fun bs => (takeBytes 2 bs).map (fun p => (leVal p.1, p.2))

def pU64 : BP Nat := fun bs => (takeBytes 8 bs).map (fun p => (leVal p.1, p.2))

/-- Two's-complement reading of a little-endian `i64`. -/
def pI64 : BP Int := fun bs =>
  (takeBytes 8 bs).map (fun p =>
    (if leVal p.1 < 2 ^ 63 then (leVal p.1 : Int) else (leVal p.1 : Int) - 2 ^ 64, p.2))

/-- Borsh `bool`: a single byte that must be 0 or 1. -/
def pBool : BP Bool := fun bs =>
  match bs with
  | 0 :: rest => some (false, rest)
  | 1 :: rest => some (true, rest)
  | _ => none

/-- Borsh `Pubkey`: exactly 32 raw bytes. -/
def pPk : BP Bytes := takeBytes 32

/-- Borsh `String`: little-endian `u32` byte count, then that many bytes
which must be valid UTF-8.  The decoded text is kept as its bytes. -/
def pStr : BP Bytes := fun bs =>
  match takeBytes 4 bs with
  | none => none
  | some (lenb, rest) =>
    match takeBytes (leVal lenb) rest with
    | none => none
    | some (strb, rest2) => if utf8Valid strb then some (strb, rest2) else none

/-- Borsh `try_from_slice` requires the slice to be consumed exactly. -/
def pEnd : BP Unit := fun bs => if bs = [] then some ((), []) else none

def runBP {α : Type} (p : BP α) (bs : Bytes) : Option α := (p bs).map Prod.fst



/-- The eight-byte event tags of types.rs. -/
def PUMPFUN_CREATE_EVENT : Bytes := [27, 114, 169, 77, 222, 235, 99, 118]

def PUMPFUN_COMPLETE_EVENT : Bytes := [95, 114, 97, 156, 212, 46, 152, 8]

def PUMPFUN_TRADE_EVENT : Bytes := [189, 219, 127, 211, 78, 230, 97, 238]

def PUMPAMM_BUY_EVENT : Bytes := [103, 244, 82, 31, 44, 245, 119, 119]

def PUMPAMM_SELL_EVENT : Bytes := [62, 47, 55, 10, 165, 3, 220, 42]

def PUMPAMM_DEPOSIT_EVENT : Bytes := [120, 248, 61, 83, 31, 142, 107, 144]

def PUMPAMM_WITHDRAW_EVENT : Bytes := [22, 9, 133, 26, 160, 44, 71, 192]

def PUMPAMM_CREATE_POOL_EVENT : Bytes := [177, 49, 12, 210, 160, 118, 167, 116]

/-- `CreateEvent` (types.rs); the strings are kept as their UTF-8 bytes. -/
structure CreateEvent where
  name : Bytes
  symbol : Bytes
  uri : Bytes
  mint : Bytes
  bonding_curve : Bytes
  user : Bytes
deriving DecidableEq

/-- `CompleteEvent` (types.rs). -/
structure CompleteEvent where
  user : Bytes
  mint : Bytes
  bonding_curve : Bytes
  timestamp : Int
deriving DecidableEq

/-- `TradeEvent` (types.rs). -/
structure TradeEvent where
  mint : Bytes
  sol_amount : Nat
  token_amount : Nat
  is_buy : Bool
  user : Bytes
  timestamp : Int
  virtual_sol_reserves : Nat
  virtual_token_reserves : Nat
  real_sol_reserves : Nat
  real_token_reserves : Nat
deriving DecidableEq

/-- `AMMBuyEvent` (types.rs). -/
structure AMMBuyEvent where
  timestamp : Int
  base_amount_out : Nat
  max_quote_amount_in : Nat
  user_base_token_reserves : Nat
  user_quote_token_reserves : Nat
  pool_base_token_reserves : Nat
  pool_quote_token_reserves : Nat
  quote_amount_in : Nat
  lp_fee_basis_points : Nat
  lp_fee : Nat
  protocol_fee_basis_points : Nat
  protocol_fee : Nat
  quote_amount_in_with_lp_fee : Nat
  user_quote_amount_in : Nat
  pool : Bytes
  user : Bytes
  user_base_token_account : Bytes
  user_quote_token_account : Bytes
  protocol_fee_recipient : Bytes
  protocol_fee_recipient_token_account : Bytes
deriving DecidableEq

/-- `AMMSellEvent` (types.rs). -/
structure AMMSellEvent where
  timestamp : Int
  base_amount_in : Nat
  min_quote_amount_out : Nat
  user_base_token_reserves : Nat
  user_quote_token_reserves : Nat
  pool_base_token_reserves : Nat
  pool_quote_token_reserves : Nat
  quote_amount_out : Nat
  lp_fee_basis_points : Nat
  lp_fee : Nat
  protocol_fee_basis_points : Nat
  protocol_fee : Nat
  quote_amount_out_without_lp_fee : Nat
  user_quote_amount_out : Nat
  pool : Bytes
  user : Bytes
  user_base_token_account : Bytes
  user_quote_token_account : Bytes
  protocol_fee_recipient : Bytes
  protocol_fee_recipient_token_account : Bytes
deriving DecidableEq

/-- `AMMDepositEvent` (types.rs). -/
structure AMMDepositEvent where
  timestamp : Int
  lp_token_amount_out : Nat
  max_base_amount_in : Nat
  max_quote_amount_in : Nat
  user_base_token_reserves : Nat
  user_quote_token_reserves : Nat
  pool_base_token_reserves : Nat
  pool_quote_token_reserves : Nat
  base_amount_in : Nat
  quote_amount_in : Nat
  lp_mint_supply : Nat
  pool : Bytes
  user : Bytes
  user_base_token_account : Bytes
  user_quote_token_account : Bytes
  user_pool_token_account : Bytes
deriving DecidableEq

/-- `AMMWithdrawEvent` (types.rs). -/
structure AMMWithdrawEvent where
  timestamp : Int
  lp_token_amount_in : Nat
  min_base_amount_out : Nat
  min_quote_amount_out : Nat
  user_base_token_reserves : Nat
  user_quote_token_reserves : Nat
  pool_base_token_reserves : Nat
  pool_quote_token_reserves : Nat
  base_amount_out : Nat
  quote_amount_out : Nat
  lp_mint_supply : Nat
  pool : Bytes
  user : Bytes
  user_base_token_account : Bytes
  user_quote_token_account : Bytes
  user_pool_token_account : Bytes
deriving DecidableEq

/-- `AMMCreatePoolEvent` (types.rs). -/
structure AMMCreatePoolEvent where
  timestamp : Int
  index : Nat
  creator : Bytes
  base_mint : Bytes
  quote_mint : Bytes
  base_mint_decimals : Nat
  quote_mint_decimals : Nat
  base_amount_in : Nat
  quote_amount_in : Nat
  pool_base_amount : Nat
  pool_quote_amount : Nat
  minimum_liquidity : Nat
  initial_liquidity : Nat
  lp_token_amount_out : Nat
  pool_bump : Nat
  pool : Bytes
  lp_mint : Bytes
  user_base_token_account : Bytes
  user_quote_token_account : Bytes
deriving DecidableEq

/-- Borsh deserialisation of `CreateEvent`, fields in declaration order,
slice consumed exactly. -/
def CreateEvent.try_from_slice (bs : Bytes) : Option CreateEvent :=
  runBP (do
    let name ← pStr
    let symbol ← pStr
    let uri ← pStr
    let mint ← pPk
    let bonding_curve ← pPk
    let user ← pPk
    pEnd
    pure ⟨name, symbol, uri, mint, bonding_curve, user⟩) bs

/-- Borsh deserialisation of `CompleteEvent`. -/
def CompleteEvent.try_from_slice (bs : Bytes) : Option CompleteEvent :=
  runBP (do
    let user ← pPk
    let mint ← pPk
    let bonding_curve ← pPk
    let timestamp ← pI64
    pEnd
    pure ⟨user, mint, bonding_curve, timestamp⟩) bs

/-- Borsh deserialisation of `TradeEvent`. -/
def TradeEvent.try_from_slice (bs : Bytes) : Option TradeEvent :=
  runBP (do
    let mint ← pPk
    let sol_amount ← pU64
    let token_amount ← pU64
    let is_buy ← pBool
    let user ← pPk
    let timestamp ← pI64
    let virtual_sol_reserves ← pU64
    let virtual_token_reserves ← pU64
    let real_sol_reserves ← pU64
    let real_token_reserves ← pU64
    pEnd
    pure ⟨mint, sol_amount, token_amount, is_buy, user, timestamp, virtual_sol_reserves,
      virtual_token_reserves, real_sol_reserves, real_token_reserves⟩) bs

/-- Borsh deserialisation of `AMMBuyEvent`. -/
def AMMBuyEvent.try_from_slice (bs : Bytes) : Option AMMBuyEvent :=
  runBP (do
    let timestamp ← pI64
    let base_amount_out ← pU64
    let max_quote_amount_in ← pU64
    let user_base_token_reserves ← pU64
    let user_quote_token_reserves ← pU64
    let pool_base_token_reserves ← pU64
    let pool_quote_token_reserves ← pU64
    let quote_amount_in ← pU64
    let lp_fee_basis_points ← pU64
    let lp_fee ← pU64
    let protocol_fee_basis_points ← pU64
    let protocol_fee ← pU64
    let quote_amount_in_with_lp_fee ← pU64
    let user_quote_amount_in ← pU64
    let pool ← pPk
    let user ← pPk
    let user_base_token_account ← pPk
    let user_quote_token_account ← pPk
    let protocol_fee_recipient ← pPk
    let protocol_fee_recipient_token_account ← pPk
    pEnd
    pure ⟨timestamp, base_amount_out, max_quote_amount_in, user_base_token_reserves,
      user_quote_token_reserves, pool_base_token_reserves, pool_quote_token_reserves,
      quote_amount_in, lp_fee_basis_points, lp_fee, protocol_fee_basis_points, protocol_fee,
      quote_amount_in_with_lp_fee, user_quote_amount_in, pool, user, user_base_token_account,
      user_quote_token_account, protocol_fee_recipient,
      protocol_fee_recipient_token_account⟩) bs

/-- Borsh deserialisation of `AMMSellEvent`. -/
def AMMSellEvent.try_from_slice (bs : Bytes) : Option AMMSellEvent :=
  runBP (do
    let timestamp ← pI64
    let base_amount_in ← pU64
    let min_quote_amount_out ← pU64
    let user_base_token_reserves ← pU64
    let user_quote_token_reserves ← pU64
    let pool_base_token_reserves ← pU64
    let pool_quote_token_reserves ← pU64
    let quote_amount_out ← pU64
    let lp_fee_basis_points ← pU64
    let lp_fee ← pU64
    let protocol_fee_basis_points ← pU64
    let protocol_fee ← pU64
    let quote_amount_out_without_lp_fee ← pU64
    let user_quote_amount_out ← pU64
    let pool ← pPk
    let user ← pPk
    let user_base_token_account ← pPk
    let user_quote_token_account ← pPk
    let protocol_fee_recipient ← pPk
    let protocol_fee_recipient_token_account ← pPk
    pEnd
    pure ⟨timestamp, base_amount_in, min_quote_amount_out, user_base_token_reserves,
      user_quote_token_reserves, pool_base_token_reserves, pool_quote_token_reserves,
      quote_amount_out, lp_fee_basis_points, lp_fee, protocol_fee_basis_points, protocol_fee,
      quote_amount_out_without_lp_fee, user_quote_amount_out, pool, user,
      user_base_token_account, user_quote_token_account, protocol_fee_recipient,
      protocol_fee_recipient_token_account⟩) bs

/-- Borsh deserialisation of `AMMDepositEvent`. -/
def AMMDepositEvent.try_from_slice (bs : Bytes) : Option AMMDepositEvent :=
  runBP (do
    let timestamp ← pI64
    let lp_token_amount_out ← pU64
    let max_base_amount_in ← pU64
    let max_quote_amount_in ← pU64
    let user_base_token_reserves ← pU64
    let user_quote_token_reserves ← pU64
    let pool_base_token_reserves ← pU64
    let pool_quote_token_reserves ← pU64
    let base_amount_in ← pU64
    let quote_amount_in ← pU64
    let lp_mint_supply ← pU64
    let pool ← pPk
    let user ← pPk
    let user_base_token_account ← pPk
    let user_quote_token_account ← pPk
    let user_pool_token_account ← pPk
    pEnd
    pure ⟨timestamp, lp_token_amount_out, max_base_amount_in, max_quote_amount_in,
      user_base_token_reserves, user_quote_token_reserves, pool_base_token_reserves,
      pool_quote_token_reserves, base_amount_in, quote_amount_in, lp_mint_supply, pool, user,
      user_base_token_account, user_quote_token_account, user_pool_token_account⟩) bs

/-- Borsh deserialisation of `AMMWithdrawEvent`. -/
def AMMWithdrawEvent.try_from_slice (bs : Bytes) : Option AMMWithdrawEvent :=
  runBP (do
    let timestamp ← pI64
    let lp_token_amount_in ← pU64
    let min_base_amount_out ← pU64
    let min_quote_amount_out ← pU64
    let user_base_token_reserves ← pU64
    let user_quote_token_reserves ← pU64
    let pool_base_token_reserves ← pU64
    let pool_quote_token_reserves ← pU64
    let base_amount_out ← pU64
    let quote_amount_out ← pU64
    let lp_mint_supply ← pU64
    let pool ← pPk
    let user ← pPk
    let user_base_token_account ← pPk
    let user_quote_token_account ← pPk
    let user_pool_token_account ← pPk
    pEnd
    pure ⟨timestamp, lp_token_amount_in, min_base_amount_out, min_quote_amount_out,
      user_base_token_reserves, user_quote_token_reserves, pool_base_token_reserves,
      pool_quote_token_reserves, base_amount_out, quote_amount_out, lp_mint_supply, pool,
      user, user_base_token_account, user_quote_token_account, user_pool_token_account⟩) bs

/-- Borsh deserialisation of `AMMCreatePoolEvent`. -/
def AMMCreatePoolEvent.try_from_slice (bs : Bytes) : Option AMMCreatePoolEvent :=
  runBP (do
    let timestamp ← pI64
    let index ← pU16
    let creator ← pPk
    let base_mint ← pPk
    let quote_mint ← pPk
    let base_mint_decimals ← pU8
    let quote_mint_decimals ← pU8
    let base_amount_in ← pU64
    let quote_amount_in ← pU64
    let pool_base_amount ← pU64
    let pool_quote_amount ← pU64
    let minimum_liquidity ← pU64
    let initial_liquidity ← pU64
    let lp_token_amount_out ← pU64
    let pool_bump ← pU8
    let pool ← pPk
    let lp_mint ← pPk
    let user_base_token_account ← pPk
    let user_quote_token_account ← pPk
    pEnd
    pure ⟨timestamp, index, creator, base_mint, quote_mint, base_mint_decimals,
      quote_mint_decimals, base_amount_in, quote_amount_in, pool_base_amount,
      pool_quote_amount, minimum_liquidity, initial_liquidity, lp_token_amount_out,
      pool_bump, pool, lp_mint, user_base_token_account, user_quote_token_account⟩) bs

/-- Embeds `CreateEvent::parse_string` (types.rs): little-endian `u32`
length prefix at `offset`, then that many UTF-8 bytes; returns the text
(as bytes) and the next offset. -/
def CreateEvent.parse_string (data : Bytes) (offset : Nat) : Option (Bytes × Nat) :=
  if data.length < offset + 4 then none
  else
    let len := leVal ((data.drop offset).take 4)
    if data.length < offset + 4 + len then none
    else
      let content := (data.drop (offset + 4)).take len
      if utf8Valid content then some (content, offset + 4 + len) else none

/-- Embeds `CreateEvent::try_manual_parse` (types.rs): the tolerant
fallback that re-reads the three string length prefixes from offset 16
and then three 32-byte public keys. -/
def CreateEvent.try_manual_parse (data : Bytes) : Option CreateEvent :=
  if data.length < 100 then none
  else
    match CreateEvent.parse_string data 16 with
    | none => none
    | some (name, o1) =>
      match CreateEvent.parse_string data o1 with
      | none => none
      | some (symbol, o2) =>
        match CreateEvent.parse_string data o2 with
        | none => none
        | some (uri, o3) =>
          if data.length < o3 + 32 * 3 then none
          else
            let mint := (data.drop o3).take 32
            let bonding_curve := (data.drop (o3 + 32)).take 32
            let user := (data.drop (o3 + 64)).take 32
            some ⟨name, symbol, uri, mint, bonding_curve, user⟩

/-- Embeds `CreateEvent::try_from_compiled_instruction` (types.rs): the
only decoder that handles a base58 failure (returning `None` instead of
panicking); guard `data.len() < 16`, tag check on bytes 8..16, borsh parse
of the body with the tolerant manual fallback. -/
def CreateEvent.try_from_compiled_instruction (data : String) : Option CreateEvent :=
  match bs58Decode data with
  | none => none
  | some bytes =>
    if bytes.length < 16 then none
    else if (bytes.drop 8).take 8 = PUMPFUN_CREATE_EVENT then
      match CreateEvent.try_from_slice (bytes.drop 16) with
      | some event => some event
      | none => CreateEvent.try_manual_parse bytes
    else none

/-- Embeds `CompleteEvent::try_from_compiled_instruction` (types.rs): the
base58 decode is `.unwrap()`ed, so a malformed data string panics — the
outer `none`; `some none` is "not this event". -/
def CompleteEvent.try_from_compiled_instruction (data : String) : Option (Option CompleteEvent) :=
  match bs58Decode data with
  | none => none
  | some bytes =>
    some (if 16 < bytes.length ∧ (bytes.drop 8).take 8 = PUMPFUN_COMPLETE_EVENT then
            CompleteEvent.try_from_slice (bytes.drop 16)
          else none)

/-- Embeds `TradeEvent::try_from_compiled_instruction` (types.rs), with
the same `.unwrap()` on the base58 decode. -/
def TradeEvent.try_from_compiled_instruction (data : String) : Option (Option TradeEvent) :=
  match bs58Decode data with
  | none => none
  | some bytes =>
    some (if 16 < bytes.length ∧ (bytes.drop 8).take 8 = PUMPFUN_TRADE_EVENT then
            TradeEvent.try_from_slice (bytes.drop 16)
          else none)

/-- Embeds `AMMBuyEvent::try_from_compiled_instruction` (types.rs). -/
def AMMBuyEvent.try_from_compiled_instruction (data : String) : Option (Option AMMBuyEvent) :=
  match bs58Decode data with
  | none => none
  | some bytes =>
    some (if 16 < bytes.length ∧ (bytes.drop 8).take 8 = PUMPAMM_BUY_EVENT then
            AMMBuyEvent.try_from_slice (bytes.drop 16)
          else none)

/-- Embeds `AMMSellEvent::try_from_compiled_instruction` (types.rs). -/
def AMMSellEvent.try_from_compiled_instruction (data : String) : Option (Option AMMSellEvent) :=
  match bs58Decode data with
  | none => none
  | some bytes =>
    some (if 16 < bytes.length ∧ (bytes.drop 8).take 8 = PUMPAMM_SELL_EVENT then
            AMMSellEvent.try_from_slice (bytes.drop 16)
          else none)

/-- Embeds `AMMDepositEvent::try_from_compiled_instruction` (types.rs). -/
def AMMDepositEvent.try_from_compiled_instruction (data : String) :
    Option (Option AMMDepositEvent) :=
  match bs58Decode data with
  | none => none
  | some bytes =>
    some (if 16 < bytes.length ∧ (bytes.drop 8).take 8 = PUMPAMM_DEPOSIT_EVENT then
            AMMDepositEvent.try_from_slice (bytes.drop 16)
          else none)

/-- Embeds `AMMWithdrawEvent::try_from_compiled_instruction` (types.rs). -/
def AMMWithdrawEvent.try_from_compiled_instruction (data : String) :
    Option (Option AMMWithdrawEvent) :=
  match bs58Decode data with
  | none => none
  | some bytes =>
    some (if 16 < bytes.length ∧ (bytes.drop 8).take 8 = PUMPAMM_WITHDRAW_EVENT then
            AMMWithdrawEvent.try_from_slice (bytes.drop 16)
          else none)

/-- Embeds `AMMCreatePoolEvent::try_from_compiled_instruction` (types.rs). -/
def AMMCreatePoolEvent.try_from_compiled_instruction (data : String) :
    Option (Option AMMCreatePoolEvent) :=
  match bs58Decode data with
  | none => none
  | some bytes =>
    some (if 16 < bytes.length ∧ (bytes.drop 8).take 8 = PUMPAMM_CREATE_POOL_EVENT then
            AMMCreatePoolEvent.try_from_slice (bytes.drop 16)
          else none)

/-- `TargetEvent` (types.rs). -/
inductive TargetEvent where
  | pumpfunBuy (e : TradeEvent)
  | pumpfunSell (e : TradeEvent)
  | pumpfunCreate (e : CreateEvent)
  | pumpfunComplete (e : CompleteEvent)
  | pumpammBuy (e : AMMBuyEvent)
  | pumpammSell (e : AMMSellEvent)
  | pumpammDeposit (e : AMMDepositEvent)
  | pumpammWithdraw (e : AMMWithdrawEvent)
  | pumpammCreatePool (e : AMMCreatePoolEvent)
deriving DecidableEq

/-- Result of running the decoder on one compiled inner instruction. -/
inductive DecodeOutcome where
  | panicked
  | notEvent
  | event (e : TargetEvent)
deriving DecidableEq

/-- Embeds `TryFrom<UiInstruction> for TargetEvent` (types.rs) on a
compiled instruction, keyed by its base58 `data` field: the decoders are
tried in source order, a trade dispatches on `is_buy`, and a run in which
some `.unwrap()` fires is `panicked`. -/
def TargetEvent.try_from (data : String) : DecodeOutcome :=
  match CreateEvent.try_from_compiled_instruction data with
  | some create => .event (.pumpfunCreate create)
  | none =>
    match CompleteEvent.try_from_compiled_instruction data with
    | none => .panicked
    | some (some complete) => .event (.pumpfunComplete complete)
    | some none =>
      match TradeEvent.try_from_compiled_instruction data with
      | none => .panicked
      | some (some trade) =>
        if trade.is_buy then .event (.pumpfunBuy trade) else .event (.pumpfunSell trade)
      | some none =>
        match AMMBuyEvent.try_from_compiled_instruction data with
        | none => .panicked
        | some (some amm_buy) => .event (.pumpammBuy amm_buy)
        | some none =>
          match AMMSellEvent.try_from_compiled_instruction data with
          | none => .panicked
          | some (some amm_sell) => .event (.pumpammSell amm_sell)
          | some none =>
            match AMMDepositEvent.try_from_compiled_instruction data with
            | none => .panicked
            | some (some amm_deposit) => .event (.pumpammDeposit amm_deposit)
            | some none =>
              match AMMWithdrawEvent.try_from_compiled_instruction data with
              | none => .panicked
              | some (some amm_withdraw) => .event (.pumpammWithdraw amm_withdraw)
              | some none =>
                match AMMCreatePoolEvent.try_from_compiled_instruction data with
                | none => .panicked
                | some (some amm_create_pool) => .event (.pumpammCreatePool amm_create_pool)
                | some none => .notEvent

/-- Embeds the `TargetEvent::PumpammBuy` arm of `Monitor::check_instruction`
(engine.rs): resolve the pool string to a mint by the reverse scan, then
update that mint's record with the AMM market cap; `none` models a panic
inside `update_mk`. -/
def process_pumpamm_buy (s : Store) (buy : AMMBuyEvent) : Option Store :=
  let pool := pubkeyToString buy.pool
  let mint := from_pool_query_token_mint s pool
  update_mk s mint
    (cal_pumpamm_marketcap_precise
      (cal_pumpamm_price buy.pool_base_token_reserves buy.pool_quote_token_reserves)) pool

/-- Embeds the `TargetEvent::PumpammSell` arm of `Monitor::check_instruction`. -/
def process_pumpamm_sell (s : Store) (sell : AMMSellEvent) : Option Store :=
  let pool := pubkeyToString sell.pool
  let mint := from_pool_query_token_mint s pool
  update_mk s mint
    (cal_pumpamm_marketcap_precise
      (cal_pumpamm_price sell.pool_base_token_reserves sell.pool_quote_token_reserves)) pool

/-- Embeds the `TargetEvent::PumpammDeposit` arm of `Monitor::check_instruction`. -/
def process_pumpamm_deposit (s : Store) (deposit : AMMDepositEvent) : Option Store :=
  let pool := pubkeyToString deposit.pool
  let mint := from_pool_query_token_mint s pool
  update_mk s mint
    (cal_pumpamm_marketcap_precise
      (cal_pumpamm_price deposit.pool_base_token_reserves deposit.pool_quote_token_reserves))
    pool

/-- Embeds the `TargetEvent::PumpammWithdraw` arm of `Monitor::check_instruction`. -/
def process_pumpamm_withdraw (s : Store) (withdraw : AMMWithdrawEvent) : Option Store :=
  let pool := pubkeyToString withdraw.pool
  let mint := from_pool_query_token_mint s pool
  update_mk s mint
    (cal_pumpamm_marketcap_precise
      (cal_pumpamm_price withdraw.pool_base_token_reserves
        withdraw.pool_quote_token_reserves)) pool


/-- Number of entries of a dispatch batch (or hash listing) carrying a
given mint key. -/
def countKey (mint : String) (l : List (String × String)) : Nat :=
  l.countP (fun e => decide (e.1 = mint))


theorem asString_data (s : String) : s.data.asString = s := rfl

theorem hget_hdel (s : Store) (k q : String) :
    hget (hdel s k) q = if q = k then none else hget s q := by
  induction s with
  | nil => simp [hdel, hget]
  | cons p rest ih =>
    obtain ⟨pk, pv⟩ := p
    simp only [hdel, hget]
    by_cases hpk : pk = k <;> by_cases hq : q = k <;> by_cases hpq : pk = q <;>
      simp_all [hget]

theorem hget_hset (s : Store) (k v q : String) :
    hget (hset s k v) q = if q = k then some v else hget s q := by
  induction s with
  | nil => simp only [hset, hget]; by_cases hq : q = k <;> simp_all [eq_comm]
  | cons p rest ih =>
    obtain ⟨pk, pv⟩ := p
    simp only [hset, hget]
    by_cases hpk : pk = k <;> by_cases hq : q = k <;> by_cases hpq : pk = q <;>
      simp_all [hget]

theorem hget_some_mem {s : Store} {k v : String} (h : hget s k = some v) : (k, v) ∈ s := by
  induction s with
  | nil => simp [hget] at h
  | cons p rest ih =>
    obtain ⟨pk, pv⟩ := p
    by_cases hpk : pk = k
    · subst hpk
      simp [hget] at h
      simp [h]
    · simp only [hget, if_neg hpk] at h
      exact List.mem_cons_of_mem _ (ih h)

theorem mem_hget_nodup {s : Store} {k v : String} (hnd : keysNodup s) (h : (k, v) ∈ s) :
    hget s k = some v := by
  induction s with
  | nil => simp at h
  | cons p rest ih =>
    obtain ⟨pk, pv⟩ := p
    rw [keysNodup, List.map_cons, List.nodup_cons] at hnd
    rcases List.mem_cons.mp h with hh | ht
    · cases hh
      simp [hget]
    · by_cases hpk : pk = k
      · exact absurd (List.mem_map.mpr ⟨(k, v), ht, rfl⟩) (hpk ▸ hnd.1)
      · simp only [hget, if_neg hpk]
        exact ih hnd.2 ht

theorem nodup_key_unique {s : Store} {k a b : String} (hnd : keysNodup s)
    (ha : (k, a) ∈ s) (hb : (k, b) ∈ s) : a = b := by
  have h1 := mem_hget_nodup hnd ha
  have h2 := mem_hget_nodup hnd hb
  rw [h1] at h2
  exact (Option.some.injEq _ _).mp h2

theorem markerKey_injective {a b : String} (h : markerKey a = markerKey b) : a = b := by
  unfold markerKey at h
  have hd : ("token_alert_sent:" ++ a).data = ("token_alert_sent:" ++ b).data := by rw [h]
  rw [String.data_append, String.data_append] at hd
  have hab : a.data = b.data := List.append_cancel_left hd
  exact congrArg String.mk hab

theorem splitOnChar_ne_nil (sep : Char) (cs : List Char) : splitOnChar sep cs ≠ [] := by
  induction cs with
  | nil => simp [splitOnChar]
  | cons c rest ih =>
    by_cases hc : c = sep
    · simp [splitOnChar, hc]
    · simp only [splitOnChar, if_neg hc]
      cases hs : splitOnChar sep rest with
      | nil => simp
      | cons h t => simp

theorem splitOnChar_single {sep : Char} {cs : List Char} (h : sep ∉ cs) :
    splitOnChar sep cs = [cs] := by
  induction cs with
  | nil => simp [splitOnChar]
  | cons c rest ih =>
    have hc : ¬ c = sep := fun he => h (he ▸ List.mem_cons_self c rest)
    have hr : sep ∉ rest := fun hm => h (List.mem_cons_of_mem _ hm)
    simp only [splitOnChar, if_neg hc, ih hr]

theorem splitOnChar_append {sep : Char} {a : List Char} (b : List Char) (h : sep ∉ a) :
    splitOnChar sep (a ++ sep :: b) = a :: splitOnChar sep b := by
  induction a with
  | nil => simp [splitOnChar]
  | cons c rest ih =>
    have hc : ¬ c = sep := fun he => h (he ▸ List.mem_cons_self c rest)
    have hr : sep ∉ rest := fun hm => h (List.mem_cons_of_mem _ hm)
    rw [List.cons_append]
    simp only [splitOnChar, if_neg hc]
    rw [ih hr]

theorem fields_joinPipe : ∀ l : List String, l ≠ [] → (∀ x ∈ l, '|' ∉ x.data) →
    fields (joinPipe l) = l := by
  intro l
  induction l with
  | nil => intro h; exact absurd rfl h
  | cons x rest ih =>
    intro _ hnp
    cases rest with
    | nil =>
      have hx : '|' ∉ x.data := hnp x (List.mem_cons_self _ _)
      show (splitOnChar '|' x.data).map List.asString = [x]
      rw [splitOnChar_single hx, List.map_singleton, asString_data]
    | cons y t =>
      have hx : '|' ∉ x.data := hnp x (List.mem_cons_self _ _)
      have hrest : fields (joinPipe (y :: t)) = y :: t :=
        ih (by simp) (fun z hz => hnp z (List.mem_cons_of_mem _ hz))
      have hj : joinPipe (x :: y :: t) = x ++ "|" ++ joinPipe (y :: t) := rfl
      rw [fields, hj, String.data_append, String.data_append]
      have hpipe : ("|" : String).data = ['|'] := rfl
      rw [hpipe, List.append_assoc, List.singleton_append, splitOnChar_append _ hx,
        List.map_cons]
      rw [fields] at hrest
      rw [hrest, asString_data]

theorem hdel_sub {s : Store} {k : String} {p : String × String} (h : p ∈ hdel s k) : p ∈ s := by
  induction s with
  | nil => simp [hdel] at h
  | cons q rest ih =>
    obtain ⟨qk, qv⟩ := q
    by_cases hq : qk = k
    · simp only [hdel, if_pos hq] at h
      exact List.mem_cons_of_mem _ (ih h)
    · simp only [hdel, if_neg hq] at h
      rcases List.mem_cons.mp h with hh | ht
      · exact hh ▸ List.mem_cons_self _ _
      · exact List.mem_cons_of_mem _ (ih ht)

theorem gc_frame {now : Nat} {θ : ℚ} :
    ∀ {items : List (String × String)} {acc acc2 : Store},
      check_mk_gc now θ items acc = some acc2 →
      ∀ q, hget acc2 q = hget acc q ∨ hget acc2 q = none := by
  intro items
  induction items with
  | nil =>
    intro acc acc2 h q
    simp only [check_mk_gc] at h
    cases h
    exact Or.inl rfl
  | cons p rest ih =>
    intro acc acc2 h q
    obtain ⟨k, info⟩ := p
    simp only [check_mk_gc] at h
    split at h
    · exact ih h q
    · split at h
      · split at h
        · rcases ih h q with he | hn
          · rw [he, hget_hdel]
            by_cases hq : q = (fields info)[0]!
            · exact Or.inr (if_pos hq)
            · rw [if_neg hq]
              exact Or.inl rfl
          · exact Or.inr hn
        · exact ih h q
      · exact absurd h (by simp)

theorem gc_none_stable {now : Nat} {θ : ℚ} {items : List (String × String)}
    {acc acc2 : Store} (h : check_mk_gc now θ items acc = some acc2) {q : String}
    (hq : hget acc q = none) : hget acc2 q = none := by
  rcases gc_frame h q with he | hn
  · rw [he, hq]
  · exact hn

theorem gc_some_sub {now : Nat} {θ : ℚ} {items : List (String × String)}
    {acc acc2 : Store} (h : check_mk_gc now θ items acc = some acc2) {q v : String}
    (hq : hget acc2 q = some v) : hget acc q = some v := by
  rcases gc_frame h q with he | hn
  · rw [← he, hq]
  · rw [hq] at hn
    exact absurd hn (by simp)

theorem gc_mem_sub {now : Nat} {θ : ℚ} :
    ∀ {items : List (String × String)} {acc acc2 : Store},
      check_mk_gc now θ items acc = some acc2 → ∀ p ∈ acc2, p ∈ acc := by
  intro items
  induction items with
  | nil =>
    intro acc acc2 h p hp
    simp only [check_mk_gc] at h
    cases h
    exact hp
  | cons e rest ih =>
    intro acc acc2 h p hp
    obtain ⟨k, info⟩ := e
    simp only [check_mk_gc] at h
    split at h
    · exact ih h p hp
    · split at h
      · split at h
        · exact hdel_sub (ih h p hp)
        · exact ih h p hp
      · exact absurd h (by simp)

theorem gc_deleted {now : Nat} {θ : ℚ} :
    ∀ {items : List (String × String)} {acc acc2 : Store},
      check_mk_gc now θ items acc = some acc2 →
      ∀ k info, (k, info) ∈ items → (fields info).length = 9 →
      ∀ mk ct, parseF32q (fields info)[1]! = some mk → parseU64q (fields info)[2]! = some ct →
      mk < θ → ct + NEW_COIN_MIN_TIME ≤ now → now < ct + NEW_COIN_MAX_TIME →
      hget acc2 ((fields info)[0]!) = none := by
  intro items
  induction items with
  | nil =>
    intro acc acc2 h k info hmem
    simp at hmem
  | cons e rest ih =>
    intro acc acc2 h k info hmem hlen mk ct hmk hct hlt hmin hmax
    obtain ⟨k0, i0⟩ := e
    rcases List.mem_cons.mp hmem with hh | ht
    · obtain ⟨hk, hi⟩ := Prod.mk.injEq .. ▸ hh
      subst hi
      simp only [check_mk_gc] at h
      rw [if_neg (by omega : ¬ (fields info).length ≠ 9)] at h
      rw [hmk, hct] at h
      simp only at h
      rw [if_pos ⟨not_le.mpr hlt, hmin, hmax⟩] at h
      exact gc_none_stable h (by rw [hget_hdel, if_pos rfl])
    · simp only [check_mk_gc] at h
      split at h
      · exact ih h k info ht hlen mk ct hmk hct hlt hmin hmax
      · split at h
        · split at h
          · exact ih h k info ht hlen mk ct hmk hct hlt hmin hmax
          · exact ih h k info ht hlen mk ct hmk hct hlt hmin hmax
        · exact absurd h (by simp)

theorem gc_kept {now : Nat} {θ : ℚ} :
    ∀ {items : List (String × String)} {acc acc2 : Store},
      check_mk_gc now θ items acc = some acc2 →
      ∀ q, hget acc2 q = none →
        hget acc q = none ∨
        ∃ p ∈ items, (fields p.2).length = 9 ∧
          ∃ mk ct, parseF32q (fields p.2)[1]! = some mk ∧
            parseU64q (fields p.2)[2]! = some ct ∧
            mk < θ ∧ ct + NEW_COIN_MIN_TIME ≤ now ∧ now < ct + NEW_COIN_MAX_TIME ∧
            (fields p.2)[0]! = q := by
  intro items
  induction items with
  | nil =>
    intro acc acc2 h q hq
    simp only [check_mk_gc] at h
    cases h
    exact Or.inl hq
  | cons e rest ih =>
    intro acc acc2 h q hq
    obtain ⟨k0, i0⟩ := e
    simp only [check_mk_gc] at h
    split at h
    · rcases ih h q hq with hl | ⟨p, hp, hrest⟩
      · exact Or.inl hl
      · exact Or.inr ⟨p, List.mem_cons_of_mem _ hp, hrest⟩
    · rename_i hlen9
      split at h
      · rename_i mk0 ct0 hmk0 hct0
        split at h
        · rename_i hcond
          rcases ih h q hq with hl | ⟨p, hp, hrest⟩
          · rw [hget_hdel] at hl
            by_cases hqf : q = (fields i0)[0]!
            · refine Or.inr ⟨(k0, i0), List.mem_cons_self _ _, of_not_not hlen9, mk0, ct0,
                hmk0, hct0, not_le.mp hcond.1, hcond.2.1, hcond.2.2, hqf.symm⟩
            · rw [if_neg hqf] at hl
              exact Or.inl hl
          · exact Or.inr ⟨p, List.mem_cons_of_mem _ hp, hrest⟩
        · rcases ih h q hq with hl | ⟨p, hp, hrest⟩
          · exact Or.inl hl
          · exact Or.inr ⟨p, List.mem_cons_of_mem _ hp, hrest⟩
      · exact absurd h (by simp)

theorem al_marks_mono {θ : ℚ} :
    ∀ {items : List (String × String)} {marks m2 : List String}
      {b : List (String × String)},
      check_mk_alert θ items marks = some (m2, b) → ∀ x ∈ marks, x ∈ m2 := by
  intro items
  induction items with
  | nil =>
    intro marks m2 b h x hx
    simp only [check_mk_alert] at h
    cases h
    exact hx
  | cons e rest ih =>
    intro marks m2 b h x hx
    obtain ⟨mint, info⟩ := e
    simp only [check_mk_alert] at h
    split at h
    · exact ih h x hx
    · split at h
      · split at h
        · split at h
          · exact absurd h (by simp)
          · rename_i m b2 heq
            rw [Option.some.injEq] at h
            obtain ⟨hm, hb⟩ := Prod.mk.injEq .. ▸ h
            subst hm
            exact ih heq x (List.mem_cons_of_mem _ hx)
        · exact ih h x hx
      · exact absurd h (by simp)

theorem al_batch_pred {θ : ℚ} :
    ∀ {items : List (String × String)} {marks m2 : List String}
      {b : List (String × String)},
      check_mk_alert θ items marks = some (m2, b) →
      ∀ e ∈ b, e ∈ items ∧ (fields e.2).length = 9 ∧
        (∃ mk, parseF32q (fields e.2)[1]! = some mk ∧ θ < mk) ∧
        markerKey e.1 ∈ m2 := by
  intro items
  induction items with
  | nil =>
    intro marks m2 b h e he
    simp only [check_mk_alert] at h
    cases h
    simp at he
  | cons p rest ih =>
    intro marks m2 b h e he
    obtain ⟨mint, info⟩ := p
    simp only [check_mk_alert] at h
    split at h
    · obtain ⟨h1, h2⟩ := ih h e he
      exact ⟨List.mem_cons_of_mem _ h1, h2⟩
    · rename_i hlen9
      split at h
      · rename_i mk0 ct0 hmk0 hct0
        split at h
        · rename_i hcond
          split at h
          · exact absurd h (by simp)
          · rename_i m b2 heq
            rw [Option.some.injEq] at h
            obtain ⟨hm, hb⟩ := Prod.mk.injEq .. ▸ h
            subst hm
            subst hb
            rcases List.mem_cons.mp he with hh | ht
            · subst hh
              refine ⟨List.mem_cons_self _ _, of_not_not hlen9, ⟨mk0, hmk0, hcond.2⟩, ?_⟩
              exact al_marks_mono heq _ (List.mem_cons_self _ _)
            · obtain ⟨h1, h2⟩ := ih heq e ht
              exact ⟨List.mem_cons_of_mem _ h1, h2⟩
        · obtain ⟨h1, h2⟩ := ih h e he
          exact ⟨List.mem_cons_of_mem _ h1, h2⟩
      · exact absurd h (by simp)

theorem al_count {θ : ℚ} (mint : String) :
    ∀ {items : List (String × String)} {marks m2 : List String}
      {b : List (String × String)},
      check_mk_alert θ items marks = some (m2, b) →
      (markerKey mint ∈ marks → countKey mint b = 0) ∧ countKey mint b ≤ 1 ∧
        (1 ≤ countKey mint b → markerKey mint ∈ m2) := by
  intro items
  induction items with
  | nil =>
    intro marks m2 b h
    simp only [check_mk_alert] at h
    cases h
    simp [countKey]
  | cons p rest ih =>
    intro marks m2 b h
    obtain ⟨k, info⟩ := p
    simp only [check_mk_alert] at h
    split at h
    · exact ih h
    · split at h
      · split at h
        · rename_i hcond
          split at h
          · exact absurd h (by simp)
          · rename_i m b2 heq
            rw [Option.some.injEq] at h
            obtain ⟨hm, hb⟩ := Prod.mk.injEq .. ▸ h
            subst hm
            subst hb
            obtain ⟨ih1, ih2, ih3⟩ := ih heq
            by_cases hk : k = mint
            · subst hk
              have hz : countKey k b2 = 0 := ih1 (List.mem_cons_self _ _)
              refine ⟨fun hmem => absurd hmem hcond.1, ?_, ?_⟩
              · have hc1 : countKey k ((k, info) :: b2) = countKey k b2 + 1 := by
                  simp [countKey, List.countP_cons]
                omega
              · intro _
                exact al_marks_mono heq _ (List.mem_cons_self _ _)
            · have hcnt : countKey mint ((k, info) :: b2) = countKey mint b2 := by
                simp [countKey, List.countP_cons, hk]
              refine ⟨fun hmem => ?_, ?_, ?_⟩
              · rw [hcnt]
                exact ih1 (List.mem_cons_of_mem _ hmem)
              · rw [hcnt]
                exact ih2
              · rw [hcnt]
                exact ih3
        · exact ih h
      · exact absurd h (by simp)

theorem al_marker_src {θ : ℚ} :
    ∀ {items : List (String × String)} {marks m2 : List String}
      {b : List (String × String)},
      check_mk_alert θ items marks = some (m2, b) →
      ∀ x ∈ m2, x ∈ marks ∨ ∃ e ∈ b, x = markerKey e.1 := by
  intro items
  induction items with
  | nil =>
    intro marks m2 b h x hx
    simp only [check_mk_alert] at h
    cases h
    exact Or.inl hx
  | cons p rest ih =>
    intro marks m2 b h x hx
    obtain ⟨k, info⟩ := p
    simp only [check_mk_alert] at h
    split at h
    · rcases ih h x hx with hl | ⟨e, he, hx2⟩
      · exact Or.inl hl
      · exact Or.inr ⟨e, he, hx2⟩
    · split at h
      · split at h
        · split at h
          · exact absurd h (by simp)
          · rename_i m b2 heq
            rw [Option.some.injEq] at h
            obtain ⟨hm, hb⟩ := Prod.mk.injEq .. ▸ h
            subst hm
            subst hb
            rcases ih heq x hx with hl | ⟨e, he, hx2⟩
            · rcases List.mem_cons.mp hl with hw | hmk
              · exact Or.inr ⟨(k, info), List.mem_cons_self _ _, hw⟩
              · exact Or.inl hmk
            · exact Or.inr ⟨e, List.mem_cons_of_mem _ he, hx2⟩
        · rcases ih h x hx with hl | ⟨e, he, hx2⟩
          · exact Or.inl hl
          · exact Or.inr ⟨e, he, hx2⟩
      · exact absurd h (by simp)

theorem al_batched {θ : ℚ} {mint info : String} {mk : ℚ} :
    ∀ {items : List (String × String)} {marks m2 : List String}
      {b : List (String × String)},
      check_mk_alert θ items marks = some (m2, b) →
      (mint, info) ∈ items → (fields info).length = 9 →
      parseF32q (fields info)[1]! = some mk → θ < mk → markerKey mint ∉ marks →
      ∃ info2, (mint, info2) ∈ b := by
  intro items
  induction items with
  | nil =>
    intro marks m2 b h hmem
    simp at hmem
  | cons p rest ih =>
    intro marks m2 b h hmem hlen hmk hgt hnm
    obtain ⟨k, i0⟩ := p
    rcases List.mem_cons.mp hmem with hh | ht
    · obtain ⟨hk, hi⟩ := Prod.mk.injEq .. ▸ hh
      subst hk
      subst hi
      simp only [check_mk_alert] at h
      rw [if_neg (by omega : ¬ (fields info).length ≠ 9)] at h
      rw [hmk] at h
      cases hct : parseU64q (fields info)[2]! with
      | none => rw [hct] at h; exact absurd h (by simp)
      | some ct =>
        rw [hct] at h
        simp only at h
        rw [if_pos ⟨hnm, hgt⟩] at h
        split at h
        · exact absurd h (by simp)
        · rename_i m b2 heq
          rw [Option.some.injEq] at h
          obtain ⟨hm, hb⟩ := Prod.mk.injEq .. ▸ h
          subst hb
          exact ⟨info, List.mem_cons_self _ _⟩
    · simp only [check_mk_alert] at h
      split at h
      · exact ih h ht hlen hmk hgt hnm
      · split at h
        · split at h
          · rename_i hcond
            split at h
            · exact absurd h (by simp)
            · rename_i m b2 heq
              rw [Option.some.injEq] at h
              obtain ⟨hm, hb⟩ := Prod.mk.injEq .. ▸ h
              subst hb
              by_cases hk : k = mint
              · subst hk
                exact ⟨i0, List.mem_cons_self _ _⟩
              · have hnm2 : markerKey mint ∉ markerKey k :: marks := by
                  intro hx
                  rcases List.mem_cons.mp hx with he | hm2
                  · exact hk (markerKey_injective he.symm)
                  · exact hnm hm2
                obtain ⟨info2, hi2⟩ := ih heq ht hlen hmk hgt hnm2
                exact ⟨info2, List.mem_cons_of_mem _ hi2⟩
          · exact ih h ht hlen hmk hgt hnm
        · exact absurd h (by simp)

theorem check_mk_eq {now : Nat} {θ : ℚ} {s : Store} {m m2 : List String} {s2 : Store}
    {b : List (String × String)} (h : check_mk now θ s m = some (s2, m2, b)) :
    check_mk_gc now θ s s = some s2 ∧ check_mk_alert θ s2 m = some (m2, b) := by
  unfold check_mk at h
  cases hgc : check_mk_gc now θ s s with
  | none => rw [hgc] at h; exact absurd h (by simp)
  | some sv =>
    rw [hgc] at h
    simp only at h
    cases hal : check_mk_alert θ sv m with
    | none => rw [hal] at h; exact absurd h (by simp)
    | some r =>
      obtain ⟨ma, ba⟩ := r
      rw [hal] at h
      cases ba <;>
        · simp only at h
          rw [Option.some.injEq] at h
          obtain ⟨h1, h2⟩ := Prod.mk.injEq .. ▸ h
          subst h1
          obtain ⟨h2, h3⟩ := Prod.mk.injEq .. ▸ h2
          subst h2
          subst h3
          exact ⟨rfl, hal⟩

theorem runActs_eval_eq (θ : ℚ) (now : Nat) (rest : List Act) (s : Store)
    (m : List String) :
    runActs θ (Act.eval now :: rest) s m =
      match check_mk now θ s m with
      | none => none
      | some r =>
        match runActs θ rest r.1 r.2.1 with
        | none => none
        | some r2 => some (r2.1, r2.2.1, r.2.2 ++ r2.2.2) := by
  cases hc : check_mk now θ s m with
  | none => simp [runActs, hc]
  | some r =>
    obtain ⟨sa, ma, ba⟩ := r
    cases hr : runActs θ rest sa ma with
    | none => cases ba <;> simp [runActs, hc, hr]
    | some r2 =>
      obtain ⟨sb, mb, bb⟩ := r2
      cases ba <;> simp [runActs, hc, hr]

theorem run_inv {θ : ℚ} (mint : String) :
    ∀ {acts : List Act} {s s2 : Store} {m m2 : List String}
      {bs : List (String × String)},
      runActs θ acts s m = some (s2, m2, bs) →
      (∀ x ∈ m, x ∈ m2) ∧ (markerKey mint ∈ m → countKey mint bs = 0) ∧
        countKey mint bs ≤ 1 ∧ (1 ≤ countKey mint bs → markerKey mint ∈ m2) ∧
        (∀ e ∈ bs, markerKey e.1 ∈ m2) := by
  intro acts
  induction acts with
  | nil =>
    intro s s2 m m2 bs h
    simp only [runActs] at h
    rw [Option.some.injEq] at h
    obtain ⟨h1, h2⟩ := Prod.mk.injEq .. ▸ h
    obtain ⟨h2, h3⟩ := Prod.mk.injEq .. ▸ h2
    subst h2
    subst h3
    refine ⟨fun x hx => hx, fun _ => by simp [countKey], by simp [countKey], ?_, ?_⟩
    · intro hc
      simp [countKey] at hc
    · intro e he
      simp at he
  | cons a rest ih =>
    intro s s2 m m2 bs h
    cases a with
    | eval now =>
      rw [runActs_eval_eq] at h
      split at h
      · exact absurd h (by simp)
      · rename_i r hc
        split at h
        · exact absurd h (by simp)
        · rename_i r2 hr
          obtain ⟨sa, ma, ba⟩ := r
          obtain ⟨sb, mb, bb⟩ := r2
          simp only at h hc hr
          rw [Option.some.injEq] at h
          obtain ⟨h1, h2⟩ := Prod.mk.injEq .. ▸ h
          subst h1
          obtain ⟨h2, h3⟩ := Prod.mk.injEq .. ▸ h2
          subst h2
          subst h3
          obtain ⟨hgc, hal⟩ := check_mk_eq hc
          have amono := al_marks_mono hal
          obtain ⟨azero, ale, aone⟩ := al_count mint hal
          have apred := al_batch_pred hal
          obtain ⟨rmono, rzero, rle, rone, rmark⟩ := ih hr
          have happ : countKey mint (ba ++ bb) = countKey mint ba + countKey mint bb := by
            simp [countKey, List.countP_append]
          refine ⟨fun x hx => rmono x (amono x hx), ?_, ?_, ?_, ?_⟩
          · intro hmem
            have hz1 := azero hmem
            have hz2 := rzero (amono _ hmem)
            omega
          · by_cases hba : 1 ≤ countKey mint ba
            · have := rzero (aone hba)
              omega
            · omega
          · intro hone
            by_cases hba : 1 ≤ countKey mint ba
            · exact rmono _ (aone hba)
            · exact rone (by omega)
          · intro e he
            rcases List.mem_append.mp he with h1 | h2
            · exact rmono _ ((apred e h1).2.2.2)
            · exact rmark e h2
    | mutate f =>
      simp only [runActs] at h
      exact ih h

theorem countKey_unique {l : List (String × String)} {mint a b : String}
    (hcnt : countKey mint l = 1) (ha : (mint, a) ∈ l) (hb : (mint, b) ∈ l) : a = b := by
  rw [countKey, List.countP_eq_length_filter] at hcnt
  obtain ⟨x, hx⟩ := List.length_eq_one.mp hcnt
  have hma : (mint, a) ∈ l.filter (fun e => decide (e.1 = mint)) :=
    List.mem_filter.mpr ⟨ha, by simp⟩
  have hmb : (mint, b) ∈ l.filter (fun e => decide (e.1 = mint)) :=
    List.mem_filter.mpr ⟨hb, by simp⟩
  rw [hx] at hma hmb
  have h1 := List.mem_singleton.mp hma
  have h2 := List.mem_singleton.mp hmb
  rw [← h2] at h1
  exact ((Prod.mk.injEq .. ▸ h1).2 : a = b)

/-- C1: for any sequence of Evaluator invocations interleaved with other
store mutations (`runActs`), every mint placed in a dispatch batch has its
`token_alert_sent:` marker set in the resulting marker keyspace — the
marker is set inside `check_mk` before the batch is handed to the fan-out
task — and at most one dispatch-batch entry (hence at most one chat-sender
alert) is ever produced per mint across the whole run. -/
theorem runActs_at_most_once_per_mint {θ : ℚ} {acts : List Act} {s s2 : Store}
    {m m2 : List String} {bs : List (String × String)}
    (h : runActs θ acts s m = some (s2, m2, bs)) (mint : String) :
    (∀ e ∈ bs, markerKey e.1 ∈ m2) ∧ countKey mint bs ≤ 1 := by
  obtain ⟨_, _, hle, _, hmark⟩ := run_inv mint h
  exact ⟨hmark, hle⟩

theorem runActs_at_most_once_per_mint_witness :
    markerKey "A" ∈ ["token_alert_sent:A"] ∧
      countKey "A" [("A", "A|60000|0|n|s|u|c|bc|p")] ≤ 1 := by
  have h := @runActs_at_most_once_per_mint 50000
    [Act.eval 660000, Act.mutate id, Act.eval 700000]
    [("A", "A|60000|0|n|s|u|c|bc|p")] [("A", "A|60000|0|n|s|u|c|bc|p")] []
    ["token_alert_sent:A"] [("A", "A|60000|0|n|s|u|c|bc|p")] (by decide) "A"
  exact ⟨h.1 ("A", "A|60000|0|n|s|u|c|bc|p") (by decide), h.2⟩

/-- C2 (amended): whenever `check_mk` appends a record to the dispatch
batch, the record's market cap strictly exceeds — in particular, is at
least — the configured threshold at the instant the marker is set.  The
age conjunct of the original claim is false (see the counterexample): the
second pass checks only the market cap, so a token whose cap first crosses
the threshold after the mid-age window has ended is still alerted. -/
theorem check_mk_batched_cap_ge_threshold {now : Nat} {θ : ℚ} {s s2 : Store}
    {m m2 : List String} {b : List (String × String)} {mint info : String} {mk : ℚ}
    (h : check_mk now θ s m = some (s2, m2, b)) (hb : (mint, info) ∈ b)
    (hmk : parseF32q ((fields info)[1]!) = some mk) : θ ≤ mk := by
  obtain ⟨hgc, hal⟩ := check_mk_eq h
  obtain ⟨_, _, ⟨mk2, hmk2, hgt⟩, _⟩ := al_batch_pred hal (mint, info) hb
  have h2 : parseF32q ((fields info)[1]!) = some mk2 := hmk2
  rw [hmk] at h2
  rw [Option.some.injEq] at h2
  rw [h2]
  exact le_of_lt hgt

theorem check_mk_batched_cap_ge_threshold_witness : (50000 : ℚ) ≤ natToRat 60000 := by
  have h := @check_mk_batched_cap_ge_threshold 660000 50000
    [("A", "A|60000|0|n|s|u|c|bc|p")] [("A", "A|60000|0|n|s|u|c|bc|p")] []
    ["token_alert_sent:A"] [("A", "A|60000|0|n|s|u|c|bc|p")] "A" "A|60000|0|n|s|u|c|bc|p"
    (natToRat 60000) (by decide) (by decide) (by decide)
  exact h

/-- C2 counterexample: with the threshold at 50 000, a record created at
time 0 holding a market cap of 100 000 is dispatched by an Evaluator pass
at `now = 1 200 000` ms (age 20 minutes), even though its age lies outside
`[NEW_COIN_MIN_TIME, NEW_COIN_MAX_TIME)`: the claim's age conjunct fails,
and a token that first crosses the threshold after the window ends is
alerted. -/
theorem check_mk_alerts_outside_age_window :
    check_mk 1200000 50000 [("A", "A|100000|0|n|s|u|c|bc|p")] [] =
      some ([("A", "A|100000|0|n|s|u|c|bc|p")], ["token_alert_sent:A"],
        [("A", "A|100000|0|n|s|u|c|bc|p")]) ∧
    parseU64q ((fields "A|100000|0|n|s|u|c|bc|p")[2]!) = some 0 ∧
    ¬ (NEW_COIN_MIN_TIME ≤ 1200000 - 0 ∧ 1200000 - 0 < NEW_COIN_MAX_TIME) := by decide

/-- C3 (amended): in the Evaluator's second pass, a surviving nine-field
record with no alert marker is marked and appended to the dispatch batch
exactly when its market cap is STRICTLY greater than the threshold (the
source compares with `>`); a record whose market cap equals the threshold
exactly is neither marked nor dispatched (see the counterexample). -/
theorem check_mk_alert_strict_threshold {θ : ℚ} {items : List (String × String)}
    {marks m2 : List String} {b : List (String × String)} {mint info : String} {mk : ℚ}
    (h : check_mk_alert θ items marks = some (m2, b))
    (hmem : (mint, info) ∈ items) (hcnt : countKey mint items = 1)
    (hlen : (fields info).length = 9)
    (hmk : parseF32q ((fields info)[1]!) = some mk)
    (hnm : markerKey mint ∉ marks) :
    ((mint, info) ∈ b ↔ θ < mk) ∧ (markerKey mint ∈ m2 ↔ θ < mk) := by
  have hdir1 : (mint, info) ∈ b → θ < mk := by
    intro hb
    obtain ⟨_, _, ⟨mk2, hmk2, hgt⟩, _⟩ := al_batch_pred h (mint, info) hb
    have h2 : parseF32q ((fields info)[1]!) = some mk2 := hmk2
    rw [hmk] at h2
    rw [Option.some.injEq] at h2
    rw [h2]
    exact hgt
  have hdir2 : θ < mk → (mint, info) ∈ b := by
    intro hgt
    obtain ⟨info2, hi2⟩ := al_batched h hmem hlen hmk hgt hnm
    have hitems : (mint, info2) ∈ items := (al_batch_pred h (mint, info2) hi2).1
    rw [countKey_unique hcnt hitems hmem] at hi2
    exact hi2
  refine ⟨⟨hdir1, hdir2⟩, ⟨?_, ?_⟩⟩
  · intro hmm
    rcases al_marker_src h _ hmm with hin | ⟨e, he, hkey⟩
    · exact absurd hin hnm
    · obtain ⟨e1, e2⟩ := e
      have he1 : e1 = mint := markerKey_injective hkey.symm
      subst he1
      have hitems : (e1, e2) ∈ items := (al_batch_pred h (e1, e2) he).1
      rw [countKey_unique hcnt hitems hmem] at he
      exact hdir1 he
  · intro hgt
    exact (al_batch_pred h (mint, info) (hdir2 hgt)).2.2.2

theorem check_mk_alert_strict_threshold_witness :
    markerKey "A" ∈ ["token_alert_sent:A"] ↔ (50000 : ℚ) < natToRat 60000 := by
  have h := @check_mk_alert_strict_threshold 50000 [("A", "A|60000|0|n|s|u|c|bc|p")] []
    ["token_alert_sent:A"] [("A", "A|60000|0|n|s|u|c|bc|p")] "A" "A|60000|0|n|s|u|c|bc|p"
    (natToRat 60000) (by decide) (by decide) (by decide) (by decide) (by decide) (by decide)
  exact h.2

/-- C3 counterexample: a nine-field record whose market cap equals the
threshold exactly (50 000) and has no marker survives the pass but is
neither marked nor dispatched — the second pass requires the cap to be
strictly greater than the threshold, refuting "a record whose market_cap
equals the threshold exactly is alerted". -/
theorem check_mk_equal_threshold_not_alerted :
    check_mk 660000 50000 [("A", "A|50000|0|n|s|u|c|bc|p")] [] =
      some ([("A", "A|50000|0|n|s|u|c|bc|p")], [], []) ∧
    parseF32q ((fields "A|50000|0|n|s|u|c|bc|p")[1]!) = some (natToRat 50000) ∧
    (50000 : ℚ) ≤ natToRat 50000 := by decide

/-- C5: in a single Evaluator pass over a well-keyed store with distinct
keys, an enumerated nine-field record is deleted if and only if it is
mid-age (`create_time + NEW_COIN_MIN_TIME ≤ now < create_time +
NEW_COIN_MAX_TIME`, i.e. `NEW_COIN_MIN_TIME ≤ age < NEW_COIN_MAX_TIME`)
AND its market cap is below the threshold; consequently after the pass no
surviving record satisfies (mid-age ∧ cap < threshold), and records
outside the window are never deleted. -/
theorem check_mk_gc_delete_iff {now : Nat} {θ : ℚ} {s s2 : Store} {m m2 : List String}
    {b : List (String × String)} (h : check_mk now θ s m = some (s2, m2, b))
    (hnd : keysNodup s) (hwk : wellKeyed s) :
    (∀ k v, (k, v) ∈ s → (fields v).length = 9 →
      ∀ mk ct, parseF32q ((fields v)[1]!) = some mk → parseU64q ((fields v)[2]!) = some ct →
        (hget s2 k = none ↔
          (mk < θ ∧ ct + NEW_COIN_MIN_TIME ≤ now ∧ now < ct + NEW_COIN_MAX_TIME))) ∧
    (∀ k v, hget s2 k = some v → (fields v).length = 9 →
      ∀ mk ct, parseF32q ((fields v)[1]!) = some mk → parseU64q ((fields v)[2]!) = some ct →
        ¬ (mk < θ ∧ ct + NEW_COIN_MIN_TIME ≤ now ∧ now < ct + NEW_COIN_MAX_TIME)) := by
  obtain ⟨hgc, hal⟩ := check_mk_eq h
  constructor
  · intro k v hmem hlen mk ct hmk hct
    constructor
    · intro hdel
      rcases gc_kept hgc k hdel with hnone |
        ⟨p, hp, hplen, mk2, ct2, hmk2, hct2, hlt2, hmin2, hmax2, hf0⟩
      · rw [mem_hget_nodup hnd hmem] at hnone
        exact absurd hnone (by simp)
      · obtain ⟨p1, p2⟩ := p
        have hpk : p1 = k := ((hwk (p1, p2) hp hplen).symm.trans hf0 : p1 = k)
        subst hpk
        have hv : p2 = v := nodup_key_unique hnd hp hmem
        subst hv
        have e1 : mk2 = mk := by
          have := hmk2.symm.trans hmk
          rwa [Option.some.injEq] at this
        have e2 : ct2 = ct := by
          have := hct2.symm.trans hct
          rwa [Option.some.injEq] at this
        subst e1
        subst e2
        exact ⟨hlt2, hmin2, hmax2⟩
    · intro hcond
      obtain ⟨hlt, hmin, hmax⟩ := hcond
      have hf0 : (fields v)[0]! = k := hwk (k, v) hmem hlen
      have hdel := gc_deleted hgc k v hmem hlen mk ct hmk hct hlt hmin hmax
      rwa [hf0] at hdel
  · intro k v hsome hlen mk ct hmk hct hcond
    obtain ⟨hlt, hmin, hmax⟩ := hcond
    have hmem : (k, v) ∈ s := hget_some_mem (gc_some_sub hgc hsome)
    have hf0 : (fields v)[0]! = k := hwk (k, v) hmem hlen
    have hdel := gc_deleted hgc k v hmem hlen mk ct hmk hct hlt hmin hmax
    rw [hf0, hsome] at hdel
    exact absurd hdel (by simp)

theorem check_mk_gc_delete_iff_witness :
    hget ([] : Store) "A" = none ↔
      (natToRat 10000 < (50000 : ℚ) ∧ 0 + NEW_COIN_MIN_TIME ≤ 720000 ∧
        720000 < 0 + NEW_COIN_MAX_TIME) := by
  have h := @check_mk_gc_delete_iff 720000 50000 [("A", "A|10000|0|n|s|u|c|bc|p")] [] []
    [] [] (by decide) (by unfold keysNodup; decide) (by unfold wellKeyed; decide)
  exact h.1 "A" "A|10000|0|n|s|u|c|bc|p" (by decide) (by decide) (natToRat 10000) 0
    (by decide) (by decide)

/-- C8: a stored record whose value splits into fewer than nine fields is
skipped by both Evaluator passes: it is never deleted (it survives with
the same value), never dispatched, and an Evaluator pass over a store
holding only that record completes without panicking, changing nothing. -/
theorem check_mk_malformed_record_skipped {now : Nat} {θ : ℚ} {s s2 : Store}
    {m m2 : List String} {b : List (String × String)} {k v : String}
    (h : check_mk now θ s m = some (s2, m2, b)) (hnd : keysNodup s) (hwk : wellKeyed s)
    (hmem : (k, v) ∈ s) (hlen : (fields v).length < 9) :
    hget s2 k = some v ∧ countKey k b = 0 ∧
      ∀ marks, check_mk now θ [(k, v)] marks = some ([(k, v)], marks, []) := by
  obtain ⟨hgc, hal⟩ := check_mk_eq h
  have hsv : hget s2 k = some v := by
    rcases gc_frame hgc k with he | hn
    · rw [he]
      exact mem_hget_nodup hnd hmem
    · rcases gc_kept hgc k hn with hnone |
        ⟨p, hp, hplen, mk2, ct2, _, _, _, _, _, hf0⟩
      · rw [mem_hget_nodup hnd hmem] at hnone
        exact absurd hnone (by simp)
      · obtain ⟨p1, p2⟩ := p
        have hpk : p1 = k := ((hwk (p1, p2) hp hplen).symm.trans hf0 : p1 = k)
        subst hpk
        have hv : p2 = v := nodup_key_unique hnd hp hmem
        have hplen2 : (fields v).length = 9 := hv ▸ (hplen : (fields p2).length = 9)
        omega
  refine ⟨hsv, ?_, ?_⟩
  · rw [countKey, List.countP_eq_zero]
    intro e he
    obtain ⟨e1, e2⟩ := e
    simp only [decide_eq_true_eq]
    intro hek
    subst hek
    have hin : (e1, e2) ∈ s2 := (al_batch_pred hal (e1, e2) he).1
    have hlen9 : (fields e2).length = 9 := (al_batch_pred hal (e1, e2) he).2.1
    have hins : (e1, e2) ∈ s := gc_mem_sub hgc (e1, e2) hin
    have hv : e2 = v := nodup_key_unique hnd hins hmem
    rw [hv] at hlen9
    omega
  · intro marks
    have hne : (fields v).length ≠ 9 := by omega
    have h1 : check_mk_gc now θ [(k, v)] [(k, v)] = some [(k, v)] := by
      unfold check_mk_gc
      rw [if_pos hne]
      simp [check_mk_gc]
    have h2 : check_mk_alert θ [(k, v)] marks = some (marks, []) := by
      unfold check_mk_alert
      rw [if_pos hne]
      simp [check_mk_alert]
    unfold check_mk
    rw [h1]
    simp only
    rw [h2]

theorem check_mk_malformed_record_skipped_witness :
    hget [("X", "only|three|fields")] "X" = some "only|three|fields" ∧
      countKey "X" [] = 0 ∧
      check_mk 660000 50000 [("X", "only|three|fields")] ["w"] =
        some ([("X", "only|three|fields")], ["w"], []) := by
  have h := @check_mk_malformed_record_skipped 660000 50000 [("X", "only|three|fields")]
    [("X", "only|three|fields")] [] [] [] "X" "only|three|fields"
    (by decide) (by unfold keysNodup; decide) (by unfold wellKeyed; decide) (by decide)
    (by decide)
  exact ⟨h.1, h.2.1, h.2.2 ["w"]⟩

theorem splitOnChar_chunks_no_sep (sep : Char) (cs : List Char) :
    ∀ l ∈ splitOnChar sep cs, sep ∉ l := by
  induction cs with
  | nil =>
    intro l hl
    simp only [splitOnChar, List.mem_singleton] at hl
    subst hl
    simp
  | cons c rest ih =>
    intro l hl
    by_cases hc : c = sep
    · simp only [splitOnChar, if_pos hc] at hl
      rcases List.mem_cons.mp hl with h1 | h2
      · subst h1
        simp
      · exact ih l h2
    · simp only [splitOnChar, if_neg hc] at hl
      cases hs : splitOnChar sep rest with
      | nil => exact absurd hs (splitOnChar_ne_nil sep rest)
      | cons hh tt =>
        rw [hs] at hl
        rcases List.mem_cons.mp hl with h1 | h2
        · subst h1
          intro hmem
          rcases List.mem_cons.mp hmem with he | hm
          · exact hc he.symm
          · exact ih hh (hs ▸ List.mem_cons_self hh tt) hm
        · exact ih l (hs ▸ List.mem_cons_of_mem hh h2)

theorem fields_no_pipe {v x : String} (hx : x ∈ fields v) : '|' ∉ x.data := by
  rw [fields] at hx
  obtain ⟨l, hl, hlx⟩ := List.mem_map.mp hx
  subst hlx
  exact splitOnChar_chunks_no_sep '|' v.data l hl

theorem getbang_mem {α : Type} [Inhabited α] {l : List α} {i : Nat} (h : i < l.length) :
    l[i]! ∈ l := by
  rw [getElem!_pos l i h]
  exact List.getElem_mem h

/-- C7: `update_mk` is a no-op when no record exists for the mint; when a
well-formed nine-field record keyed by its own mint exists, it rewrites
exactly that record — field 0 (mint), field 2 (create_time) and fields
3–7 are preserved, field 1 becomes the stringified market cap and field 8
the pool — while every other key of the store is untouched. -/
theorem update_mk_frame {s : Store} {mint : String} (mc : FP) (pool : String) :
    (hget s mint = none → update_mk s mint mc pool = some s) ∧
    (∀ v, hget s mint = some v → (fields v).length = 9 → (fields v)[0]! = mint →
      update_mk s mint mc pool =
        some (hset s mint (joinPipe [mint, floatToString mc, (fields v)[2]!,
          (fields v)[3]!, (fields v)[4]!, (fields v)[5]!, (fields v)[6]!, (fields v)[7]!,
          pool])) ∧
      (∀ q, q ≠ mint →
        hget (hset s mint (joinPipe [mint, floatToString mc, (fields v)[2]!,
          (fields v)[3]!, (fields v)[4]!, (fields v)[5]!, (fields v)[6]!, (fields v)[7]!,
          pool])) q = hget s q) ∧
      ('|' ∉ (floatToString mc).data → '|' ∉ pool.data →
        fields (joinPipe [mint, floatToString mc, (fields v)[2]!, (fields v)[3]!,
          (fields v)[4]!, (fields v)[5]!, (fields v)[6]!, (fields v)[7]!, pool]) =
          [mint, floatToString mc, (fields v)[2]!, (fields v)[3]!, (fields v)[4]!,
            (fields v)[5]!, (fields v)[6]!, (fields v)[7]!, pool])) := by
  constructor
  · intro hno
    simp [update_mk, hno]
  · intro v hgv hlen hf0
    refine ⟨?_, ?_, ?_⟩
    · unfold update_mk
      rw [hgv]
      simp only
      rw [if_neg (by omega : ¬ (fields v).length < 8), hf0]
    · intro q hq
      rw [hget_hset]
      exact if_neg hq
    · intro hfs hpool
      apply fields_joinPipe
      · simp
      · intro x hx
        simp only [List.mem_cons, List.not_mem_nil, or_false] at hx
        rcases hx with rfl | rfl | rfl | rfl | rfl | rfl | rfl | rfl | rfl
        · exact hf0 ▸ fields_no_pipe (getbang_mem (by omega))
        · exact hfs
        · exact fields_no_pipe (getbang_mem (by omega))
        · exact fields_no_pipe (getbang_mem (by omega))
        · exact fields_no_pipe (getbang_mem (by omega))
        · exact fields_no_pipe (getbang_mem (by omega))
        · exact fields_no_pipe (getbang_mem (by omega))
        · exact fields_no_pipe (getbang_mem (by omega))
        · exact hpool

theorem update_mk_frame_witness :
    update_mk [("A", "A|0|123|n|s|u|c|bc|"), ("B", "x")] "A" (FP.fin (natToRat 100)) "P" =
      some [("A", "A|100|123|n|s|u|c|bc|P"), ("B", "x")] ∧
    hget [("A", "A|100|123|n|s|u|c|bc|P"), ("B", "x")] "B" =
      hget [("A", "A|0|123|n|s|u|c|bc|"), ("B", "x")] "B" := by
  have h := (@update_mk_frame [("A", "A|0|123|n|s|u|c|bc|"), ("B", "x")] "A"
    (FP.fin (natToRat 100)) "P").2
    "A|0|123|n|s|u|c|bc|" (by decide) (by decide) (by decide)
  refine ⟨?_, ?_⟩
  · rw [h.1]
    decide
  · have h2 := h.2.1 "B" (by decide)
    decide

/-- C4 (amended): on any inner-instruction data string that is well-formed
base58 (of any length), the decoder is total: it returns one typed event
of the closed set or not-an-event, never panicking.  The original claim
fails for ill-formed base58 data (see the counterexample): every decoder
except `CreateEvent`'s calls `.unwrap()` on the base58 decode result. -/
theorem target_event_total_on_valid_base58 {data : String} {bytes : Bytes}
    (h : bs58Decode data = some bytes) :
    TargetEvent.try_from data ≠ DecodeOutcome.panicked := by
  unfold TargetEvent.try_from
  unfold CompleteEvent.try_from_compiled_instruction
    TradeEvent.try_from_compiled_instruction AMMBuyEvent.try_from_compiled_instruction
    AMMSellEvent.try_from_compiled_instruction AMMDepositEvent.try_from_compiled_instruction
    AMMWithdrawEvent.try_from_compiled_instruction
    AMMCreatePoolEvent.try_from_compiled_instruction
  rw [h]
  simp only
  intro hc
  repeat' split at hc
  all_goals simp_all

theorem target_event_total_on_valid_base58_witness :
    TargetEvent.try_from "" ≠ DecodeOutcome.panicked :=
  @target_event_total_on_valid_base58 "" [] (by decide)

/-- C4 counterexample: the one-character data string "0" is not valid
base58; the Create decoder swallows the failure, but the Complete decoder
then panics on `.unwrap()`, so the decoder fails to return a value —
refuting totality over arbitrary (≤ 4 KiB) payload strings. -/
theorem target_event_panics_on_invalid_base58 :
    TargetEvent.try_from "0" = DecodeOutcome.panicked ∧ bs58Decode "0" = none := by decide

/-- C6 (amended): the fan-out queries the social-search client with the
mint as the `q` parameter (the cursor parameter always present, sort
"Top"); a failed search falls back to the default empty post without
aborting, and a successful search with at least one post uses the first
post — but a successful response whose post list is EMPTY panics on
`.first().unwrap()` (aborting the fan-out task) instead of using the
default post. -/
theorem fanout_x_info_first_or_default (mint : String) (t : Tweet) (ts : List Tweet) :
    search_params mint none (some "Top") =
      [("q", mint), ("cursor", ""), ("sort_by", "Top")] ∧
    fanout_x_info (SearchOutcome.ok (t :: ts)) = some t ∧
    fanout_x_info SearchOutcome.err = some defaultTweet ∧
    fanout_x_info (SearchOutcome.ok []) = none := by
  refine ⟨?_, rfl, rfl, rfl⟩
  simp [search_params]

/-- C6 counterexample: a successful search outcome with an empty post
list makes the fan-out panic (`tweets.first().unwrap()`) — modelled by
`none` — rather than proceed with the default empty post. -/
theorem fanout_x_info_empty_ok_panics :
    fanout_x_info (SearchOutcome.ok []) = none ∧
      fanout_x_info (SearchOutcome.ok []) ≠ some defaultTweet := by decide

/-- C9 (amended): the launchpad pricing function computes
`(virtual_sol_reserves / 1e9) / (virtual_token_reserves / 1e6)` in
double precision and the market cap multiplies the price by
1 000 000 000; but when `virtual_token_reserves` is zero the IEEE
division returns `+∞` for positive sol reserves (`NaN` when both are
zero), NOT 0 — the zero guard exists only in the AMM pricing function,
which does return 0 on zero base reserves. -/
theorem cal_pumpfun_price_formula (vsol vtok : Nat) :
    (vtok ≠ 0 → cal_pumpfun_price vsol vtok =
      FP.fin (((vsol : ℚ) / 10 ^ 9) / ((vtok : ℚ) / 10 ^ 6))) ∧
    (vtok = 0 → cal_pumpfun_price vsol vtok = (if vsol = 0 then FP.nan else FP.inf)) ∧
    (∀ p : ℚ, cal_pumpfun_marketcap (FP.fin p) = FP.fin (p * 1000000000)) ∧
    (∀ base quote : Nat, base = 0 → cal_pumpamm_price base quote = FP.fin 0) := by
  refine ⟨?_, ?_, fun p => rfl, ?_⟩
  · intro hne
    unfold cal_pumpfun_price divF64
    rw [if_neg]
    exact div_ne_zero (Nat.cast_ne_zero.mpr hne) (by norm_num)
  · intro hz
    subst hz
    unfold cal_pumpfun_price divF64
    rw [if_pos (by norm_num)]
    by_cases hv : vsol = 0
    · subst hv
      rw [if_neg (by norm_num), if_neg (by norm_num), if_pos rfl]
    · rw [if_pos (by positivity), if_neg hv]
  · intro base quote hb
    subst hb
    simp [cal_pumpamm_price]

theorem cal_pumpfun_price_formula_witness :
    cal_pumpfun_price 1000000000 0 = FP.inf ∧ cal_pumpfun_price 0 0 = FP.nan := by
  refine ⟨?_, ?_⟩
  · have h := (cal_pumpfun_price_formula 1000000000 0).2.1 rfl
    simpa using h
  · have h := (cal_pumpfun_price_formula 0 0).2.1 rfl
    simpa using h

/-- C9 counterexample: with zero virtual token reserves and a positive
sol reserve the launchpad price is `+∞`, not 0 as the claim states. -/
theorem cal_pumpfun_price_zero_reserves_not_zero :
    cal_pumpfun_price 1000000000 0 ≠ FP.fin 0 ∧
      cal_pumpfun_price 1000000000 0 = FP.inf := by
  have h : cal_pumpfun_price 1000000000 0 = FP.inf := by
    unfold cal_pumpfun_price divF64
    rw [if_pos (by norm_num), if_pos (by norm_num)]
  exact ⟨by rw [h]; simp, h⟩

/-- C10: an AMM Buy, Sell, Deposit or Withdraw event whose pool address
matches no stored record's ninth (pool) field leaves the token store
unchanged: the reverse lookup returns the empty string rather than an
error, and the market-cap update for the empty mint finds no record and
is a no-op. -/
theorem amm_event_unknown_pool_no_op {s : Store} {pool : String}
    (hno : ∀ p ∈ s, ¬ (8 < (fields p.2).length ∧ (fields p.2)[8]! = pool))
    (hempty : hget s "" = none) :
    from_pool_query_token_mint s pool = "" ∧
    (∀ e : AMMBuyEvent, pubkeyToString e.pool = pool → process_pumpamm_buy s e = some s) ∧
    (∀ e : AMMSellEvent, pubkeyToString e.pool = pool →
      process_pumpamm_sell s e = some s) ∧
    (∀ e : AMMDepositEvent, pubkeyToString e.pool = pool →
      process_pumpamm_deposit s e = some s) ∧
    (∀ e : AMMWithdrawEvent, pubkeyToString e.pool = pool →
      process_pumpamm_withdraw s e = some s) := by
  have hq : ∀ s2 : Store,
      (∀ p ∈ s2, ¬ (8 < (fields p.2).length ∧ (fields p.2)[8]! = pool)) →
      from_pool_query_token_mint s2 pool = "" := by
    intro s2
    induction s2 with
    | nil => intro _; rfl
    | cons p rest ih =>
      intro hno2
      obtain ⟨k, v⟩ := p
      simp only [from_pool_query_token_mint]
      rw [if_neg (hno2 (k, v) (List.mem_cons_self _ _))]
      exact ih (fun p hp => hno2 p (List.mem_cons_of_mem _ hp))
  refine ⟨hq s hno, ?_, ?_, ?_, ?_⟩
  · intro e he
    unfold process_pumpamm_buy
    rw [he]
    dsimp only
    rw [hq s hno]
    simp [update_mk, hempty]
  · intro e he
    unfold process_pumpamm_sell
    rw [he]
    dsimp only
    rw [hq s hno]
    simp [update_mk, hempty]
  · intro e he
    unfold process_pumpamm_deposit
    rw [he]
    dsimp only
    rw [hq s hno]
    simp [update_mk, hempty]
  · intro e he
    unfold process_pumpamm_withdraw
    rw [he]
    dsimp only
    rw [hq s hno]
    simp [update_mk, hempty]

theorem amm_event_unknown_pool_no_op_witness :
    process_pumpamm_buy [("M", "M|0|0|n|s|u|c|bc|POOLX")]
      ⟨0, 0, 0, 0, 0, 0, 0, 0, 0, 0, 0, 0, 0, 0, List.replicate 32 0, [], [], [], [], []⟩ =
      some [("M", "M|0|0|n|s|u|c|bc|POOLX")] := by
  have h := @amm_event_unknown_pool_no_op [("M", "M|0|0|n|s|u|c|bc|POOLX")]
    "11111111111111111111111111111111" (by decide) (by decide)
  exact h.2.1 _ (by decide)
